import Mathlib

/-!
Verification of the base-branch resolution engine of diffpilot-ts.

The engine lives in `src/git/git-service.ts`. Every git query goes through a
single process executor (`runGitCommand`); we model the operating-system side
of one `exec` call as an abstract outcome (`ExecOutcome`) and a repository as
an oracle (`GitWorld`) mapping a command line and working directory to such an
outcome. All engine functions are embedded as pure functions in a
reader/writer monad `GitM` over this oracle; the writer part records every
spawned subprocess, so "no subprocess is spawned" is expressible.

String operations mirror the JavaScript semantics used by the source
(truthiness of strings, `trim`, `split`, `parseInt`, case-insensitive
regexes), implemented by structural recursion on character lists so that every
definition evaluates inside the kernel.
-/

/-! ## JavaScript string semantics -/

/-- Whitespace in the sense of JavaScript `\s` (the characters relevant
to this code base). -/
def jsWsChar (c : Char) : Bool :=
  c == ' ' || c == '\t' || c == '\n' || c == '\r' || c == '\x0b' || c == '\x0c'

/-- JavaScript `String.prototype.trim`. -/
def jsTrim (s : String) : String :=
  ⟨((s.data.dropWhile jsWsChar).reverse.dropWhile jsWsChar).reverse⟩

/-- JavaScript `String.prototype.split` with a one-character separator:
splits at every occurrence, keeping empty pieces. -/
def jsSplitCharAux (sep : Char) : List Char → List Char → List String
  | [], acc => [⟨acc.reverse⟩]
  | c :: cs, acc =>
    if c == sep then ⟨acc.reverse⟩ :: jsSplitCharAux sep cs []
    else jsSplitCharAux sep cs (c :: acc)

/-- JavaScript `s.split(sep)` for a single-character separator. -/
def jsSplitChar (sep : Char) (s : String) : List String :=
  jsSplitCharAux sep s.data []

/-- Does `l` start with `p` (character-exact)? -/
def hasPre : List Char → List Char → Bool
  | [], _ => true
  | _ :: _, [] => false
  | p :: ps, c :: cs => p == c && hasPre ps cs

/-- Does `l` contain `n` as a contiguous substring? -/
def hasInfixL (n : List Char) : List Char → Bool
  | [] => n.isEmpty
  | l@(_ :: cs) => hasPre n l || hasInfixL n cs

/-- JavaScript `s.startsWith(pre)`. -/
def jsStartsWith (pre s : String) : Bool := hasPre pre.data s.data

/-- JavaScript `s.includes(sub)`. -/
def jsIncludesStr (sub s : String) : Bool := hasInfixL sub.data s.data

/-- JavaScript `s.slice(n)` (drop the first `n` code units). -/
def jsDrop (n : Nat) (s : String) : String := ⟨s.data.drop n⟩

/-- JavaScript `s.toLowerCase()` (ASCII fragment). -/
def jsToLower (s : String) : String := ⟨s.data.map Char.toLower⟩

/-- JavaScript `s.toUpperCase()` (ASCII fragment). -/
def jsToUpper (s : String) : String := ⟨s.data.map Char.toUpper⟩

/-- Truthiness of a JavaScript `string | null` value: `null` and the empty
string are falsy. -/
def jsTruthyS (s : Option String) : Bool :=
  match s with
  | none => false
  | some v => !(v == "")

/-- JavaScript `a || b` on strings (first operand if truthy, else second). -/
def jsOr (a b : String) : String := if a == "" then b else a

/-- A JavaScript anchored character-class regex `^[...]+$`: at least one
character and every character accepted. -/
def jsReTestAll (ok : Char → Bool) (s : String) : Bool :=
  !s.data.isEmpty && s.data.all ok

/-- Value of a digit run, JavaScript style. -/
def digitsVal (l : List Char) : Option Nat :=
  let ds := l.takeWhile Char.isDigit
  if ds.isEmpty then none
  else some (ds.foldl (fun a c => a * 10 + (c.toNat - 48)) 0)

/-- JavaScript `parseInt(s, 10)`: optional sign, then a digit run, ignoring
anything after it; `none` models `NaN`. -/
def jsParseInt (s : String) : Option Int :=
  match s.data.dropWhile jsWsChar with
  | '-' :: rest => (digitsVal rest).map (fun n => -(n : Int))
  | '+' :: rest => (digitsVal rest).map (fun n => (n : Int))
  | l => (digitsVal l).map (fun n => (n : Int))

/-! ## Data model (`git-service.ts` lines 16-26) -/

/-- Result of a git command execution (`GitCommandResult`). -/
structure GitCommandResult where
  exitCode : Int
  output : String
deriving DecidableEq, Repr

/-- Branch detection result (`BranchInfo`). -/
structure BranchInfo where
  remote : String
  baseBranch : String
deriving DecidableEq, Repr

/-! ## Process executor (`runGitCommand`, lines 32-62) -/

/-- What the operating system reports for one `execAsync` call: either a clean
completion with captured streams, or a raised error object carrying a
`killed` flag (timeout), an optional exit code, optional captured streams and
an optional message. -/
inductive ExecOutcome where
  | success (stdout stderr : String)
  | failure (killed : Bool) (code : Option Int) (stdout stderr message : Option String)
deriving DecidableEq, Repr

/-- `DEFAULT_TIMEOUT_MS` (line 14). -/
def DEFAULT_TIMEOUT_MS : Nat := 60000

/-- `runGitCommand` (lines 32-62): the try/catch around `execAsync`, as a
total function of the call's outcome. On success, exit code 0 and
stdout+stderr. On a killed (timed-out) process, exit code `-1` and a message
naming the command and timeout. On any other failure, the reported exit code
(`?? 1`) and `(stdout ?? '') + (stderr ?? '') || message || 'Unknown error'`. -/
def runGitCommand (args : String) (timeoutMs : Nat) (outcome : ExecOutcome) :
    GitCommandResult :=
  match outcome with
  | .success stdout stderr => { exitCode := 0, output := stdout ++ stderr }
  | .failure killed code stdout stderr message =>
    if killed then
      { exitCode := -1
        output := "Git command timed out after " ++ toString timeoutMs ++ "ms: git " ++ args }
    else
      { exitCode := code.getD 1
        output := jsOr ((stdout.getD "") ++ (stderr.getD "")) (jsOr (message.getD "") "Unknown error") }

/-! ## The repository oracle and the effect monad -/

/-- A repository state, observed through the only channel the engine has:
running a git command line in a working directory. -/
structure GitWorld where
  exec : String → String → ExecOutcome

/-- One spawned subprocess: the argument string and the working directory. -/
def GitCall := String × String
deriving instance DecidableEq, Repr for GitCall

/-- The engine's effect monad: a computation reads the repository oracle and
records every subprocess it spawns, in order. -/
def GitM (α : Type) : Type := GitWorld → α × List GitCall

def GitM.pure (a : α) : GitM α := fun _ => (a, [])

def GitM.bind (m : GitM α) (f : α → GitM β) : GitM β := fun w =>
  let r := m w
  let s := f r.1 w
  (s.1, r.2 ++ s.2)

instance instMonadGitM : Monad GitM where
  pure := GitM.pure
  bind := GitM.bind

/-- The value a computation produces on a given repository. -/
def runRes (m : GitM α) (w : GitWorld) : α := (m w).1

/-- The subprocesses a computation spawns on a given repository. -/
def runCalls (m : GitM α) (w : GitWorld) : List GitCall := (m w).2

/-- Executing `git <args>` in a working directory: one subprocess, interpreted
through `runGitCommand` with the default timeout. -/
def runGitCommandM (args wd : String) : GitM GitCommandResult :=
  fun w => (runGitCommand args DEFAULT_TIMEOUT_MS (w.exec args wd), [(args, wd)])

/-! ## Repository query layer -/

/-- `getMergeBase` (lines 596-603). -/
def getMergeBase (wd branch1 branch2 : String) : GitM (Option String) := do
  let result ← runGitCommandM ("merge-base " ++ branch1 ++ " " ++ branch2) wd
  pure (if result.exitCode == 0 then some (jsTrim result.output) else none)

/-- `isBranchAhead` (lines 608-621): true iff `rev-list --count base..branch`
succeeds and parses to a positive integer. -/
def isBranchAhead (wd branch baseBranch : String) : GitM Bool := do
  let result ← runGitCommandM ("rev-list --count " ++ baseBranch ++ ".." ++ branch) wd
  if result.exitCode != 0 then pure false
  else
    pure (match jsParseInt (jsTrim result.output) with
      | none => false
      | some n => decide (0 < n))

/-- `getLocalBranches` (lines 626-640). -/
def getLocalBranches (wd excludeBranch : String) : GitM (List String) := do
  let result ← runGitCommandM "branch --list --format=%(refname:short)" wd
  if result.exitCode != 0 then pure []
  else
    pure (((jsSplitChar '\n' result.output).map jsTrim).filter
      (fun b => !(b == "") && !(b == excludeBranch)))

/-- `getRemoteBranches` (lines 645-662). -/
def getRemoteBranches (wd remote : String) : GitM (List String) := do
  let result ← runGitCommandM
    ("branch -r --list \"" ++ remote ++ "/*\" --format=%(refname:short)") wd
  if result.exitCode != 0 then pure []
  else
    let pre := remote ++ "/"
    pure ((((jsSplitChar '\n' result.output).map jsTrim).filter
        (fun b => !(b == "") && !(jsIncludesStr "->" b))
      |>.map (fun b => if jsStartsWith pre b then jsDrop pre.length b else b))
      |>.filter (fun b => !(b == "")))

/-- `getBranchRemote` (lines 304-313). -/
def getBranchRemote (wd branch : String) : GitM (Option String) := do
  let result ← runGitCommandM ("config --get branch." ++ branch ++ ".remote") wd
  pure (if result.exitCode == 0 then some (jsTrim result.output) else none)

/-- The loop of `findRemoteForBranch` over the configured remotes
(lines 334-343). -/
def checkRemotesForBranch (wd branch : String) : List String → GitM (Option String)
  | [] => pure none
  | remoteName :: rest => do
    let checkResult ← runGitCommandM
      ("show-ref --verify --quiet refs/remotes/" ++ jsTrim remoteName ++ "/" ++ branch) wd
    if checkResult.exitCode == 0 then pure (some (jsTrim remoteName))
    else checkRemotesForBranch wd branch rest

/-- `findRemoteForBranch` (lines 318-346). -/
def findRemoteForBranch (wd branch : String) : GitM (Option String) := do
  let configRemote ← getBranchRemote wd branch
  if jsTruthyS configRemote then pure configRemote
  else do
    let remotesResult ← runGitCommandM "remote" wd
    if remotesResult.exitCode != 0 then pure none
    else
      checkRemotesForBranch wd branch
        ((jsSplitChar '\n' remotesResult.output).filter (fun r => !(r == "")))

/-- `findFromTrackingConfig` (lines 278-299). -/
def findFromTrackingConfig (wd branch : String) : GitM (Option String) := do
  let result ← runGitCommandM ("config --get branch." ++ branch ++ ".merge") wd
  if result.exitCode != 0 || jsTrim result.output == "" then pure none
  else
    let trackingRef := jsTrim result.output
    if jsStartsWith "refs/heads/" trackingRef then
      pure (some (jsDrop ("refs/heads/".length) trackingRef))
    else pure (some trackingRef)

/-! ## Name heuristics (`isCommitHash`, `isLikelyLongLivedBaseBranch`,
`isValidBranchName`, `isValidFileName`) -/

/-- A hexadecimal digit, `[0-9a-fA-F]`. -/
def isHexChar (c : Char) : Bool :=
  c.isDigit || ('a' ≤ c && c ≤ 'f') || ('A' ≤ c && c ≤ 'F')

/-- `isCommitHash` (lines 667-672): 7-40 characters, all hexadecimal. -/
def isCommitHash (value : String) : Bool :=
  if value == "" || value.length < 7 || value.length > 40 then false
  else jsReTestAll isHexChar value

/-- The character class `[a-zA-Z0-9/_-]` of `isValidBranchName`. -/
def branchNameChar (c : Char) : Bool :=
  c.isAlphanum || c == '/' || c == '_' || c == '-'

/-- The character class `[a-zA-Z0-9/_.-]` of `isValidFileName`. -/
def fileNameChar (c : Char) : Bool :=
  c.isAlphanum || c == '/' || c == '_' || c == '.' || c == '-'

/-- `isValidBranchName` (lines 678-683). -/
def isValidBranchName (name : String) : Bool :=
  if name == "" || jsTrim name == "" then false
  else jsReTestAll branchNameChar name

/-- `isValidFileName` (lines 688-696). -/
def isValidFileName (name : String) : Bool :=
  if name == "" || jsTrim name == "" then false
  else if jsIncludesStr ".." name then false
  else jsReTestAll fileNameChar name

/-- `isLikelyLongLivedBaseBranch` (lines 519-533). -/
def isLikelyLongLivedBaseBranch (branch : String) : Bool :=
  let name := jsToLower branch
  name == "main" || name == "master" || name == "develop" || name == "dev" ||
  name == "trunk" || name == "release" ||
  jsStartsWith "release/" name || jsStartsWith "release-" name ||
  jsStartsWith "hotfix/" name || jsStartsWith "hotfix-" name

/-- The two sides `chooseCandidateFromHierarchy` can pick. -/
inductive HierarchyChoice where
  | existing
  | incoming
deriving DecidableEq, Repr

/-- `chooseCandidateFromHierarchy` (lines 497-513). -/
def chooseCandidateFromHierarchy (existingBranch incomingBranch : String)
    (isIncomingChildOfExisting : Bool) : HierarchyChoice :=
  let existingStable := isLikelyLongLivedBaseBranch existingBranch
  let incomingStable := isLikelyLongLivedBaseBranch incomingBranch
  if existingStable && !incomingStable then .existing
  else if incomingStable && !existingStable then .incoming
  else if isIncomingChildOfExisting then .incoming else .existing

/-! ## Reflog pattern matching (`findFromReflog`, lines 230-273)

The source uses the unanchored, case-insensitive regexes
`/branch:\s*Created from\s+(\S+)/i` and
`/checkout:\s*moving from\s+(\S+)\s+to\s+(\S+)/i`. Both are deterministic
(maximal-munch coincides with the backtracking search), so they are embedded
as first-position-that-matches scanners over the character list. -/

/-- Drop a case-insensitive literal from the front of a character list. -/
def ciPrefixDrop : List Char → List Char → Option (List Char)
  | [], rest => some rest
  | _ :: _, [] => none
  | p :: ps, c :: cs => if p.toLower == c.toLower then ciPrefixDrop ps cs else none

/-- Require at least one whitespace character (`\s+`), then drop the maximal
whitespace run. -/
def wsPlusDrop (l : List Char) : Option (List Char) :=
  match l with
  | [] => none
  | c :: cs => if jsWsChar c then some (cs.dropWhile jsWsChar) else none

/-- Take a maximal nonempty run of non-whitespace characters (`(\S+)`). -/
def tokenTake (l : List Char) : Option (List Char × List Char) :=
  let tok := l.takeWhile (fun c => !jsWsChar c)
  if tok.isEmpty then none else some (tok, l.drop tok.length)

/-- Try `branch:\s*Created from\s+(\S+)` at the head of the list. -/
def matchCreatedFromAt (l : List Char) : Option String :=
  (ciPrefixDrop "branch:".data l).bind fun r1 =>
  (ciPrefixDrop "created from".data (r1.dropWhile jsWsChar)).bind fun r2 =>
  (wsPlusDrop r2).bind fun r3 =>
  (tokenTake r3).map fun tk => ⟨tk.1⟩

/-- Unanchored search for the `Created from` pattern (JavaScript `match`). -/
def searchCreatedFrom : List Char → Option String
  | [] => none
  | l@(_ :: cs) =>
    match matchCreatedFromAt l with
    | some s => some s
    | none => searchCreatedFrom cs

/-- `line.match(/branch:\s*Created from\s+(\S+)/i)`, returning the capture. -/
def matchCreatedFrom (line : String) : Option String := searchCreatedFrom line.data

/-- Try `checkout:\s*moving from\s+(\S+)\s+to\s+(\S+)` at the head. -/
def matchCheckoutAt (l : List Char) : Option (String × String) :=
  (ciPrefixDrop "checkout:".data l).bind fun r1 =>
  (ciPrefixDrop "moving from".data (r1.dropWhile jsWsChar)).bind fun r2 =>
  (wsPlusDrop r2).bind fun r3 =>
  (tokenTake r3).bind fun fromTk =>
  (wsPlusDrop fromTk.2).bind fun r5 =>
  (ciPrefixDrop "to".data r5).bind fun r6 =>
  (wsPlusDrop r6).bind fun r7 =>
  (tokenTake r7).map fun toTk => (⟨fromTk.1⟩, ⟨toTk.1⟩)

/-- Unanchored search for the `checkout: moving from` pattern. -/
def searchCheckout : List Char → Option (String × String)
  | [] => none
  | l@(_ :: cs) =>
    match matchCheckoutAt l with
    | some p => some p
    | none => searchCheckout cs

/-- `line.match(/checkout:\s*moving from\s+(\S+)\s+to\s+(\S+)/i)`. -/
def matchCheckoutMoving (line : String) : Option (String × String) :=
  searchCheckout line.data

/-- `source.includes('/') ? source.split('/').pop()! : source` (line 258). -/
def stripRemotePart (source : String) : String :=
  if source.data.contains '/' then (jsSplitChar '/' source).getLastD "" else source

/-- The loop body of `findFromReflog` for one reflog line (lines 246-269):
`some r` means the loop returns `r`, `none` means it moves to the next line.
A `Created from` match whose source is `HEAD` (case-insensitive) or looks like
a commit hash falls through to the next line without trying the checkout
pattern; a checkout match is used only when its target is the current branch
and its source is not a commit hash. -/
def reflogLineCandidate (currentBranch line : String) : Option String :=
  match matchCreatedFrom line with
  | some source =>
    if jsToUpper source == "HEAD" || isCommitHash source then none
    else some (stripRemotePart source)
  | none =>
    match matchCheckoutMoving line with
    | some p =>
      if p.2 == currentBranch && !isCommitHash p.1 then some (stripRemotePart p.1)
      else none
    | none => none

/-- The `for (const line of lines.reverse())` loop of `findFromReflog`:
first line (in the given order) with a valid candidate wins. -/
def reflogScanLines (currentBranch : String) : List String → Option String
  | [] => none
  | line :: rest =>
    match reflogLineCandidate currentBranch line with
    | some r => some r
    | none => reflogScanLines currentBranch rest

/-- `findFromReflog` (lines 230-273). -/
def findFromReflog (wd currentBranch : String) : GitM (Option String) := do
  let result ← runGitCommandM ("reflog show " ++ currentBranch ++ " --format=%gs") wd
  if result.exitCode != 0 || jsTrim result.output == "" then pure none
  else
    let lines := (jsSplitChar '\n' result.output).filter (fun l => !(l == ""))
    pure (reflogScanLines currentBranch lines.reverse)

/-! ## History/graph analysis (`findFromGitHistory`, lines 356-491) -/

/-- The mutable locals of the candidate scan in `findFromGitHistory`
(lines 376-380). -/
structure HistScan where
  uniqueBase : Option String
  uniqueRemote : Option String
  uniqueRef : Option String
  candidateCount : Nat
  hasAmbiguity : Bool
deriving DecidableEq, Repr

/-- The scan state before any branch is visited. -/
def historyInit : HistScan :=
  { uniqueBase := none, uniqueRemote := none, uniqueRef := none
    candidateCount := 0, hasAmbiguity := false }

/-- One iteration of the local-branch loop of `findFromGitHistory`
(lines 383-432). -/
def historyStepLocal (wd currentBranch remote currentHead : String)
    (st : HistScan) (branch : String) : GitM HistScan := do
  let mergeBase ← getMergeBase wd currentBranch branch
  if !(jsTruthyS mergeBase) then pure st
  else if mergeBase.getD "" == currentHead then pure st
  else do
    let isAhead ← isBranchAhead wd currentBranch branch
    if !isAhead then pure st
    else
      let candidateCount := st.candidateCount + 1
      if candidateCount == 1 then do
        let r ← findRemoteForBranch wd branch
        pure { uniqueBase := some branch, uniqueRemote := some (r.getD remote)
               uniqueRef := some branch, candidateCount := 1
               hasAmbiguity := st.hasAmbiguity }
      else do
        let isNewCandidateChildOfPrevious ← isBranchAhead wd branch (st.uniqueRef.getD "")
        let isPreviousChildOfNewCandidate ← isBranchAhead wd (st.uniqueRef.getD "") branch
        if isNewCandidateChildOfPrevious && !isPreviousChildOfNewCandidate then
          match chooseCandidateFromHierarchy (st.uniqueBase.getD "") branch true with
          | .incoming => do
            let r ← findRemoteForBranch wd branch
            pure { uniqueBase := some branch, uniqueRemote := some (r.getD remote)
                   uniqueRef := some branch, candidateCount := 1
                   hasAmbiguity := st.hasAmbiguity }
          | .existing => pure { st with candidateCount := 1 }
        else if isPreviousChildOfNewCandidate && !isNewCandidateChildOfPrevious then
          match chooseCandidateFromHierarchy (st.uniqueBase.getD "") branch false with
          | .incoming => do
            let r ← findRemoteForBranch wd branch
            pure { uniqueBase := some branch, uniqueRemote := some (r.getD remote)
                   uniqueRef := some branch, candidateCount := 1
                   hasAmbiguity := st.hasAmbiguity }
          | .existing => pure { st with candidateCount := 1 }
        else
          pure { st with candidateCount := candidateCount, hasAmbiguity := true }

/-- The local-branch loop of `findFromGitHistory`. -/
def scanLocalBranches (wd currentBranch remote currentHead : String) :
    HistScan → List String → GitM HistScan
  | st, [] => pure st
  | st, branch :: rest => do
    let st' ← historyStepLocal wd currentBranch remote currentHead st branch
    scanLocalBranches wd currentBranch remote currentHead st' rest

/-- One iteration of the remote-branch loop of `findFromGitHistory`
(lines 435-483); branches that also exist locally are skipped. -/
def historyStepRemote (wd currentBranch remote currentHead : String)
    (localBranches : List String) (st : HistScan) (branch : String) : GitM HistScan :=
  if localBranches.contains branch then pure st
  else do
    let remoteRef := remote ++ "/" ++ branch
    let mergeBase ← getMergeBase wd currentBranch remoteRef
    if !(jsTruthyS mergeBase) || mergeBase.getD "" == currentHead then pure st
    else do
      let isAhead ← isBranchAhead wd currentBranch remoteRef
      if !isAhead then pure st
      else
        let candidateCount := st.candidateCount + 1
        if candidateCount == 1 then
          pure { uniqueBase := some branch, uniqueRemote := some remote
                 uniqueRef := some remoteRef, candidateCount := 1
                 hasAmbiguity := st.hasAmbiguity }
        else do
          let isNewCandidateChildOfPrevious ← isBranchAhead wd remoteRef (st.uniqueRef.getD "")
          let isPreviousChildOfNewCandidate ← isBranchAhead wd (st.uniqueRef.getD "") remoteRef
          if isNewCandidateChildOfPrevious && !isPreviousChildOfNewCandidate then
            match chooseCandidateFromHierarchy (st.uniqueBase.getD "") branch true with
            | .incoming =>
              pure { uniqueBase := some branch, uniqueRemote := some remote
                     uniqueRef := some remoteRef, candidateCount := 1
                     hasAmbiguity := st.hasAmbiguity }
            | .existing => pure { st with candidateCount := 1 }
          else if isPreviousChildOfNewCandidate && !isNewCandidateChildOfPrevious then
            match chooseCandidateFromHierarchy (st.uniqueBase.getD "") branch false with
            | .incoming =>
              pure { uniqueBase := some branch, uniqueRemote := some remote
                     uniqueRef := some remoteRef, candidateCount := 1
                     hasAmbiguity := st.hasAmbiguity }
            | .existing => pure { st with candidateCount := 1 }
          else
            pure { st with candidateCount := candidateCount, hasAmbiguity := true }

/-- The remote-branch loop of `findFromGitHistory`. -/
def scanRemoteBranches (wd currentBranch remote currentHead : String)
    (localBranches : List String) : HistScan → List String → GitM HistScan
  | st, [] => pure st
  | st, branch :: rest => do
    let st' ← historyStepRemote wd currentBranch remote currentHead localBranches st branch
    scanRemoteBranches wd currentBranch remote currentHead localBranches st' rest

/-- `findFromGitHistory` (lines 356-491). -/
def findFromGitHistory (wd currentBranch remote : String) : GitM (Option BranchInfo) := do
  let localBranches ← getLocalBranches wd currentBranch
  let remoteBranches ← getRemoteBranches wd remote
  let currentHeadResult ← runGitCommandM ("rev-parse " ++ currentBranch) wd
  if currentHeadResult.exitCode != 0 then pure none
  else
    let currentHead := jsTrim currentHeadResult.output
    let st1 ← scanLocalBranches wd currentBranch remote currentHead historyInit localBranches
    let st2 ← scanRemoteBranches wd currentBranch remote currentHead localBranches st1 remoteBranches
    if st2.candidateCount == 1 && jsTruthyS st2.uniqueBase && !st2.hasAmbiguity then
      pure (some { remote := st2.uniqueRemote.getD remote
                   baseBranch := st2.uniqueBase.getD "" })
    else pure none

/-! ## Keyword fallback (`findFromBranchNameKeywords`, lines 539-591) -/

/-- `selectKeywordBranch` (lines 580-591). -/
def selectKeywordBranch (matchList : List String) (keyword : String) : Option String :=
  if matchList.isEmpty then none
  else
    match matchList.find? (fun branch => jsToLower branch == keyword) with
    | some exactMatch => some exactMatch
    | none => if matchList.length == 1 then matchList.head? else none

/-- The anchored, case-insensitive release test: the name is exactly
`release`, or starts with `release` followed by a slash or hyphen. -/
def releaseRuleTest (b : String) : Bool :=
  let n := jsToLower b
  n == "release" || jsStartsWith "release/" n || jsStartsWith "release-" n

/-- The ordered rule list of `findFromBranchNameKeywords` (lines 549-555). -/
def keywordRules : List (String × (String → Bool)) :=
  [ ("release", releaseRuleTest)
  , ("main", fun b => jsToLower b == "main")
  , ("master", fun b => jsToLower b == "master")
  , ("develop", fun b => jsToLower b == "develop")
  , ("dev", fun b => jsToLower b == "dev") ]

/-- Worker for `jsSetDedup`: drop elements already seen. -/
def jsSetDedupAux (seen : List String) : List String → List String
  | [] => []
  | x :: xs =>
    if seen.contains x then jsSetDedupAux seen xs
    else x :: jsSetDedupAux (x :: seen) xs

/-- `[...new Set(l)]`: deduplication keeping first occurrences. -/
def jsSetDedup (l : List String) : List String := jsSetDedupAux [] l

/-- The `for (const rule of rules)` loop of `findFromBranchNameKeywords`
(lines 557-572). -/
def tryKeywordRules (wd remote : String) (allBranches remoteBranches : List String) :
    List (String × (String → Bool)) → GitM (Option BranchInfo)
  | [] => pure none
  | rule :: rest => do
    let matchList := allBranches.filter rule.2
    let selected := selectKeywordBranch matchList rule.1
    if !(jsTruthyS selected) then tryKeywordRules wd remote allBranches remoteBranches rest
    else do
      let branchRemote ←
        if remoteBranches.contains (selected.getD "") then pure remote
        else do
          let r ← findRemoteForBranch wd (selected.getD "")
          pure (r.getD remote)
      pure (some { remote := branchRemote, baseBranch := selected.getD "" })

/-- `findFromBranchNameKeywords` (lines 539-575). -/
def findFromBranchNameKeywords (wd currentBranch remote : String) :
    GitM (Option BranchInfo) := do
  let localBranches ← getLocalBranches wd currentBranch
  let remoteBranches ← getRemoteBranches wd remote
  let allBranches :=
    (jsSetDedup (localBranches ++ remoteBranches)).filter (fun b => !(b == currentBranch))
  tryKeywordRules wd remote allBranches remoteBranches keywordRules

/-! ## Resolution orchestrator (`findBaseBranch`, lines 188-225) -/

/-- `findBaseBranch` (lines 188-225): guard on empty inputs, then the four
strategies in order — history, reflog, tracking configuration, keyword
fallback — returning the first truthy result. -/
def findBaseBranch (wd currentBranch remote : String) : GitM (Option BranchInfo) :=
  if wd == "" || currentBranch == "" then pure none
  else do
    let historyBase ← findFromGitHistory wd currentBranch remote
    match historyBase with
    | some info => pure (some info)
    | none => do
      let reflogBase ← findFromReflog wd currentBranch
      if jsTruthyS reflogBase then do
        let branchRemote ← findRemoteForBranch wd (reflogBase.getD "")
        pure (some { remote := branchRemote.getD remote, baseBranch := reflogBase.getD "" })
      else do
        let trackingBase ← findFromTrackingConfig wd currentBranch
        if jsTruthyS trackingBase && !(trackingBase.getD "" == currentBranch) then do
          let branchRemote ← getBranchRemote wd currentBranch
          pure (some { remote := branchRemote.getD remote, baseBranch := trackingBase.getD "" })
        else do
          let keywordBase ← findFromBranchNameKeywords wd currentBranch remote
          match keywordBase with
          | some info => pure (some info)
          | none => pure none

/-! ## Observations of a repository

Readable names for the values the engine's queries produce on a given
repository; used to state the theorems below. -/

/-- The local branch list the engine sees (excluding the current branch). -/
def localsOf (w : GitWorld) (wd cur : String) : List String :=
  runRes (getLocalBranches wd cur) w

/-- The remote branch list the engine sees. -/
def remotesOf (w : GitWorld) (wd remote : String) : List String :=
  runRes (getRemoteBranches wd remote) w

/-- The raw result of `rev-parse <cur>`. -/
def revParseOf (w : GitWorld) (wd cur : String) : GitCommandResult :=
  runRes (runGitCommandM ("rev-parse " ++ cur) wd) w

/-- The merge-base the engine sees for two refs. -/
def mergeBaseOf (w : GitWorld) (wd a b : String) : Option String :=
  runRes (getMergeBase wd a b) w

/-- The ahead-check the engine sees (`branch` ahead of `base`). -/
def aheadOf (w : GitWorld) (wd branch base : String) : Bool :=
  runRes (isBranchAhead wd branch base) w

/-- The current branch's tip as the history strategy computes it. -/
def historyHead (w : GitWorld) (wd cur : String) : String :=
  jsTrim (revParseOf w wd cur).output

/-- The acceptance test of the local-branch loop (lines 384-392): a merge-base
exists (truthy), differs from the current tip, and the current branch is
strictly ahead of the candidate. -/
def localCandidate (w : GitWorld) (wd cur head b : String) : Bool :=
  jsTruthyS (mergeBaseOf w wd cur b) &&
  !((mergeBaseOf w wd cur b).getD "" == head) &&
  aheadOf w wd cur b

/-- The acceptance test of the remote-branch loop (lines 436-443): not already
scanned as a local branch, and the same three checks against `remote/b`. -/
def remoteCandidate (w : GitWorld) (wd cur head remote : String)
    (locals : List String) (b : String) : Bool :=
  !(locals.contains b) &&
  jsTruthyS (mergeBaseOf w wd cur (remote ++ "/" ++ b)) &&
  !((mergeBaseOf w wd cur (remote ++ "/" ++ b)).getD "" == head) &&
  aheadOf w wd cur (remote ++ "/" ++ b)

/-- The scan state after both candidate loops of `findFromGitHistory`. -/
def historyFinalState (w : GitWorld) (wd cur remote : String) : HistScan :=
  runRes (scanRemoteBranches wd cur remote (historyHead w wd cur) (localsOf w wd cur)
    (runRes (scanLocalBranches wd cur remote (historyHead w wd cur) historyInit
      (localsOf w wd cur)) w)
    (remotesOf w wd remote)) w

/-- Soundness invariant of the candidate scan: whatever branch is currently
recorded as the unique base was drawn from one of the two branch lists, its
recorded reference is the one the loop compared against, and the current
branch is strictly ahead of that reference. -/
def HistScanOK (w : GitWorld) (wd cur remote : String)
    (locals remotes : List String) (st : HistScan) : Prop :=
  ∀ b, st.uniqueBase = some b →
    (b ∈ locals ∧ st.uniqueRef = some b ∧ aheadOf w wd cur b = true) ∨
    (b ∈ remotes ∧ st.uniqueRef = some (remote ++ "/" ++ b) ∧
      aheadOf w wd cur (remote ++ "/" ++ b) = true)

/-! ## Specification-side rules -/

/-- The branch-name validation rule exactly as the specification words it:
characters drawn from `[a-zA-Z0-9/_.-]` (at least one), no `..` substring,
and not starting with `-`. Stated from the spec's words, to be compared with
the source's `isValidBranchName`. -/
def specBranchNameRule (name : String) : Bool :=
  jsReTestAll fileNameChar name &&
  !(jsIncludesStr ".." name) &&
  !(jsStartsWith "-" name)

/-! ## Concrete repositories used as witnesses and counterexamples -/

/-- A successful command with the given stdout and empty stderr. -/
def okOut (s : String) : ExecOutcome := .success s ""

/-- A failed command (exit code 1, empty streams). -/
def failOut : ExecOutcome := .failure false (some 1) (some "") (some "") (some "boom")

/-- Look up a command line in a table of canned outcomes; unknown commands
fail with exit code 1. -/
def execFromTable (table : List (String × ExecOutcome)) (args : String) : ExecOutcome :=
  match table.find? (fun p => p.1 == args) with
  | some p => p.2
  | none => failOut

/-- A repository oracle built from a table of canned outcomes. -/
def worldOfTable (table : List (String × ExecOutcome)) : GitWorld :=
  ⟨fun args _ => execFromTable table args⟩

/-- A repository where every command fails. -/
def wTriv : GitWorld := worldOfTable []

/-- A repository whose reflog names a branch (`ghost`) that no longer exists:
no local or remote branches, history finds nothing, the reflog strategy
returns `ghost` although the current branch is not ahead of it. -/
def wGhost : GitWorld := worldOfTable
  [ ("branch --list --format=%(refname:short)", okOut "")
  , ("branch -r --list \"origin/*\" --format=%(refname:short)", okOut "")
  , ("rev-parse feature", okOut "deadbeef\n")
  , ("reflog show feature --format=%gs", okOut "branch: Created from ghost\n")
  , ("remote", okOut "") ]

/-- A repository with local branches `release-2024` and `main` and nothing
else; all evidence-based strategies fail, so the keyword fallback decides. -/
def wKw : GitWorld := worldOfTable
  [ ("branch --list --format=%(refname:short)", okOut "release-2024\nmain\n")
  , ("branch -r --list \"origin/*\" --format=%(refname:short)", okOut "")
  , ("remote", okOut "") ]

/-- A repository with local branches `release-a` and `release-b` only. -/
def wKw2 : GitWorld := worldOfTable
  [ ("branch --list --format=%(refname:short)", okOut "release-a\nrelease-b\n")
  , ("branch -r --list \"origin/*\" --format=%(refname:short)", okOut "")
  , ("remote", okOut "") ]

/-- A repository where the current branch `feature` is strictly ahead of two
local branches `b1` and `b2` that are mutually non-ancestors: the history
strategy flags ambiguity. -/
def wAmb : GitWorld := worldOfTable
  [ ("branch --list --format=%(refname:short)", okOut "b1\nb2\n")
  , ("branch -r --list \"origin/*\" --format=%(refname:short)", okOut "")
  , ("rev-parse feature", okOut "head0\n")
  , ("merge-base feature b1", okOut "mb1\n")
  , ("merge-base feature b2", okOut "mb2\n")
  , ("rev-list --count b1..feature", okOut "2\n")
  , ("rev-list --count b2..feature", okOut "3\n")
  , ("rev-list --count b1..b2", okOut "0\n")
  , ("rev-list --count b2..b1", okOut "0\n")
  , ("remote", okOut "") ]

/-- A repository where `feature` has exactly one history candidate, `main`. -/
def wOne : GitWorld := worldOfTable
  [ ("branch --list --format=%(refname:short)", okOut "main\n")
  , ("branch -r --list \"origin/*\" --format=%(refname:short)", okOut "")
  , ("rev-parse feature", okOut "head0\n")
  , ("merge-base feature main", okOut "mb1\n")
  , ("rev-list --count main..feature", okOut "2\n")
  , ("remote", okOut "") ]

/-- A repository whose reflog records a checkout onto `feature` coming from
the detached-head sentinel. -/
def wHeadCo : GitWorld := worldOfTable
  [ ("branch --list --format=%(refname:short)", okOut "")
  , ("branch -r --list \"origin/*\" --format=%(refname:short)", okOut "")
  , ("reflog show feature --format=%gs", okOut "checkout: moving from HEAD to feature\n") ]

/-- A repository whose reflog records creation from `origin/abcdef1`, a
commit-hash-looking name behind a remote prefix. -/
def wHexCo : GitWorld := worldOfTable
  [ ("branch --list --format=%(refname:short)", okOut "")
  , ("branch -r --list \"origin/*\" --format=%(refname:short)", okOut "")
  , ("reflog show feature --format=%gs", okOut "branch: Created from origin/abcdef1\n") ]

/-! # Theorems -/

/-! ## Basic laws of the effect monad -/

@[simp] theorem runRes_pure (a : α) (w : GitWorld) :
    runRes (Pure.pure (f := GitM) a) w = a := rfl

@[simp] theorem runRes_bind (m : GitM α) (f : α → GitM β) (w : GitWorld) :
    runRes (Bind.bind (m := GitM) m f) w = runRes (f (runRes m w)) w := rfl

@[simp] theorem runRes_ite (c : Prop) [Decidable c] (a b : GitM α) (w : GitWorld) :
    runRes (if c then a else b) w = if c then runRes a w else runRes b w := by
  by_cases h : c <;> simp [h]

/-! ## C8: the process executor's contract -/

/-- C8: `runGitCommand` is a total function (it never throws — every outcome
yields a `GitCommandResult`): a clean completion yields exit code 0 and
stdout+stderr; a killed (timed-out) process yields exit code `-1` and a
message stating the command and the timeout value; any other failure yields
the process's reported exit code (or 1 if unavailable) and stdout+stderr,
falling back to the error's own message when that concatenation is empty
(and to `"Unknown error"` when the message is empty too). -/
theorem runGitCommand_total_contract :
    (∀ (args : String) (t : Nat) (so se : String),
      runGitCommand args t (.success so se) = { exitCode := 0, output := so ++ se })
    ∧ (∀ (args : String) (t : Nat) (code : Option Int) (so se m : Option String),
      runGitCommand args t (.failure true code so se m) =
        { exitCode := -1
          output := "Git command timed out after " ++ toString t ++ "ms: git " ++ args })
    ∧ (∀ (args : String) (t : Nat) (code : Option Int) (so se m : Option String),
      runGitCommand args t (.failure false code so se m) =
        { exitCode := code.getD 1
          output := jsOr ((so.getD "") ++ (se.getD "")) (jsOr (m.getD "") "Unknown error") })
    ∧ (∀ (args : String) (t : Nat) (code : Option Int) (so se m : Option String),
      (so.getD "") ++ (se.getD "") ≠ "" →
      runGitCommand args t (.failure false code so se m) =
        { exitCode := code.getD 1, output := (so.getD "") ++ (se.getD "") })
    ∧ (∀ (args : String) (t : Nat) (code : Option Int) (so se : Option String) (m : String),
      (so.getD "") ++ (se.getD "") = "" → m ≠ "" →
      runGitCommand args t (.failure false code so se (some m)) =
        { exitCode := code.getD 1, output := m }) := by
  refine ⟨fun _ _ _ _ => rfl, fun _ _ _ _ _ _ => rfl, fun _ _ _ _ _ _ => rfl, ?_, ?_⟩
  · intro args t code so se m h
    simp [runGitCommand, jsOr, h]
  · intro args t code so se m h hm
    simp [runGitCommand, jsOr, h, hm]

/-- Witness for C8 at concrete failure outcomes. -/
theorem runGitCommand_total_contract_witness :
    runGitCommand "status" 60000 (.failure false (some 128) (some "out") (some "") (some "m")) =
      { exitCode := 128, output := "out" } ∧
    runGitCommand "status" 60000 (.failure false none (some "") (some "") (some "oops")) =
      { exitCode := 1, output := "oops" } :=
  ⟨runGitCommand_total_contract.2.2.2.1 "status" 60000 (some 128) (some "out") (some "")
      (some "m") (by decide),
   runGitCommand_total_contract.2.2.2.2 "status" 60000 none (some "") (some "") "oops"
      (by decide) (by decide)⟩

/-! ## C9: determinism of resolution -/

/-- C9: `findBaseBranch` is a pure function of the repository's observable
behaviour — two calls against repositories that answer every command
identically (in particular, two successive calls against an unchanged
repository) produce identical results (and identical subprocess traces);
the engine keeps no cross-call state. -/
theorem findBaseBranch_deterministic (w1 w2 : GitWorld)
    (h : ∀ args wd, w1.exec args wd = w2.exec args wd)
    (wd currentBranch remote : String) :
    findBaseBranch wd currentBranch remote w1 = findBaseBranch wd currentBranch remote w2 := by
  obtain ⟨e1⟩ := w1
  obtain ⟨e2⟩ := w2
  have he : e1 = e2 := funext fun a => funext fun d => h a d
  subst he
  rfl

/-- Witness for C9: the same repository queried twice. -/
theorem findBaseBranch_deterministic_witness :
    findBaseBranch "repo" "feature" "origin" wTriv =
      findBaseBranch "repo" "feature" "origin" wTriv :=
  findBaseBranch_deterministic wTriv wTriv (fun _ _ => rfl) "repo" "feature" "origin"

/-! ## C10: the empty-input guard -/

/-- C10: when the working directory or the current branch is the empty
string, `findBaseBranch` returns no result and spawns no subprocess — the
guard returns before any strategy runs. -/
theorem findBaseBranch_empty_inputs (w : GitWorld) (wd currentBranch remote : String)
    (h : wd = "" ∨ currentBranch = "") :
    findBaseBranch wd currentBranch remote w = (none, []) := by
  have hg : (wd == "" || currentBranch == "") = true := by
    rcases h with h | h <;> subst h <;> simp
  unfold findBaseBranch
  rw [if_pos hg]
  rfl

/-- Witness for C10 at concrete empty inputs. -/
theorem findBaseBranch_empty_inputs_witness :
    findBaseBranch "" "feature" "origin" wTriv = (none, []) :=
  findBaseBranch_empty_inputs wTriv "" "feature" "origin" (Or.inl rfl)

/-! ## C3: the hierarchy tie-break -/

/-- C3: `isLikelyLongLivedBaseBranch` holds exactly for the case-insensitive
patterns `main`, `master`, `develop`, `dev`, `trunk`, `release`,
`release/*`, `release-*`, `hotfix/*`, `hotfix-*`; and
`chooseCandidateFromHierarchy` picks the side matching the pattern when
exactly one side matches, and otherwise picks the child (the candidate that
is ahead of the other, as encoded by the `isIncomingChildOfExisting` flag
set by the history scan). -/
theorem chooseCandidateFromHierarchy_tiebreak :
    (∀ b : String, isLikelyLongLivedBaseBranch b = true ↔
      (jsToLower b = "main" ∨ jsToLower b = "master" ∨ jsToLower b = "develop" ∨
       jsToLower b = "dev" ∨ jsToLower b = "trunk" ∨ jsToLower b = "release" ∨
       jsStartsWith "release/" (jsToLower b) = true ∨
       jsStartsWith "release-" (jsToLower b) = true ∨
       jsStartsWith "hotfix/" (jsToLower b) = true ∨
       jsStartsWith "hotfix-" (jsToLower b) = true))
    ∧ (∀ (e i : String) (f : Bool), isLikelyLongLivedBaseBranch e = true →
        isLikelyLongLivedBaseBranch i = false →
        chooseCandidateFromHierarchy e i f = HierarchyChoice.existing)
    ∧ (∀ (e i : String) (f : Bool), isLikelyLongLivedBaseBranch i = true →
        isLikelyLongLivedBaseBranch e = false →
        chooseCandidateFromHierarchy e i f = HierarchyChoice.incoming)
    ∧ (∀ (e i : String) (f : Bool),
        isLikelyLongLivedBaseBranch e = isLikelyLongLivedBaseBranch i →
        chooseCandidateFromHierarchy e i f =
          if f then HierarchyChoice.incoming else HierarchyChoice.existing) := by
  refine ⟨?_, ?_, ?_, ?_⟩
  · intro b
    simp [isLikelyLongLivedBaseBranch, Bool.or_eq_true, beq_iff_eq, or_assoc]
  · intro e i f h1 h2
    simp [chooseCandidateFromHierarchy, h1, h2]
  · intro e i f h1 h2
    simp [chooseCandidateFromHierarchy, h1, h2]
  · intro e i f h
    cases hv : isLikelyLongLivedBaseBranch e <;> rw [hv] at h <;>
      simp [chooseCandidateFromHierarchy, hv, h.symm]

/-- Witness for C3: keyword preference and child preference at concrete
branch names. -/
theorem chooseCandidateFromHierarchy_tiebreak_witness :
    chooseCandidateFromHierarchy "feature-x" "main" false = HierarchyChoice.incoming ∧
    chooseCandidateFromHierarchy "b1" "b2" true =
      (if true then HierarchyChoice.incoming else HierarchyChoice.existing) :=
  ⟨chooseCandidateFromHierarchy_tiebreak.2.2.1 "feature-x" "main" false (by decide) (by decide),
   chooseCandidateFromHierarchy_tiebreak.2.2.2 "b1" "b2" true (by decide)⟩

/-! ## C7: branch-name validation -/

theorem jsTrim_empty_all_ws (s : String) (h : jsTrim s = "") :
    ∀ c ∈ s.data, jsWsChar c = true := by
  have h2 : ((s.data.dropWhile jsWsChar).reverse.dropWhile jsWsChar).reverse = [] :=
    congrArg String.data h
  rw [List.reverse_eq_nil_iff] at h2
  have h3 : ∀ c ∈ (s.data.dropWhile jsWsChar).reverse, jsWsChar c = true :=
    List.dropWhile_eq_nil_iff.mp h2
  have h4 : ∀ c ∈ s.data.dropWhile jsWsChar, jsWsChar c = true := by
    intro c hc
    exact h3 c (List.mem_reverse.mpr hc)
  intro c hc
  rw [← List.takeWhile_append_dropWhile (p := jsWsChar) (l := s.data)] at hc
  rcases List.mem_append.mp hc with hc | hc
  · exact List.mem_takeWhile_imp hc
  · exact h4 c hc

theorem wsChar_not_name_char (c : Char) (h : jsWsChar c = true) :
    branchNameChar c = false ∧ fileNameChar c = false := by
  have : c = ' ' ∨ c = '\t' ∨ c = '\n' ∨ c = '\r' ∨ c = '\x0b' ∨ c = '\x0c' := by
    simpa [jsWsChar, Bool.or_eq_true, beq_iff_eq, or_assoc] using h
  rcases this with h | h | h | h | h | h <;> subst h <;> exact ⟨rfl, rfl⟩

theorem all_ws_reTest_false (ok : Char → Bool) (s : String)
    (hws : ∀ c ∈ s.data, jsWsChar c = true)
    (hok : ∀ c, jsWsChar c = true → ok c = false) :
    jsReTestAll ok s = false := by
  unfold jsReTestAll
  cases hd : s.data with
  | nil => rfl
  | cons c cs =>
    have hc : ok c = false := hok c (hws c (by rw [hd]; exact List.mem_cons_self c cs))
    simp [hd, List.all_cons, hc]

/-- C7 counterexample: the claimed rule (character class with dot, no `..`,
no leading hyphen) disagrees with `isValidBranchName` in both directions:
`"a.b"` satisfies the claimed rule but is rejected, and `"-x"` violates the
claimed rule but is accepted. -/
theorem isValidBranchName_claim_counterexample :
    specBranchNameRule "a.b" = true ∧ isValidBranchName "a.b" = false ∧
    isValidBranchName "-x" = true ∧ specBranchNameRule "-x" = false := by decide

/-- C7 amended: `isValidBranchName` accepts exactly the nonempty strings over
`[a-zA-Z0-9/_-]` (no dot; no double-dot or leading-hyphen restriction), while
the dotted class together with the `..` rejection belongs to
`isValidFileName` (which has no leading-hyphen restriction either). -/
theorem isValidBranchName_amended (name : String) :
    isValidBranchName name = jsReTestAll branchNameChar name ∧
    isValidFileName name = (!(jsIncludesStr ".." name) && jsReTestAll fileNameChar name) := by
  by_cases he : name = ""
  · subst he; exact ⟨rfl, rfl⟩
  · have hne : (name == "") = false := by simpa using he
    by_cases ht : jsTrim name = ""
    · have hws := jsTrim_empty_all_ws name ht
      have hb : jsReTestAll branchNameChar name = false :=
        all_ws_reTest_false _ _ hws (fun c hc => (wsChar_not_name_char c hc).1)
      have hf : jsReTestAll fileNameChar name = false :=
        all_ws_reTest_false _ _ hws (fun c hc => (wsChar_not_name_char c hc).2)
      have htb : (jsTrim name == "") = true := by simpa using ht
      constructor
      · unfold isValidBranchName
        rw [hne, htb]
        simp [hb]
      · unfold isValidFileName
        rw [hne, htb]
        simp [hf]
    · have htb : (jsTrim name == "") = false := by simpa using ht
      constructor
      · unfold isValidBranchName
        rw [hne, htb]
        simp
      · unfold isValidFileName
        rw [hne, htb]
        simp only [Bool.or_self, Bool.false_or, if_neg Bool.false_ne_true]
        by_cases hdd : jsIncludesStr ".." name = true
        · simp [hdd]
        · have hdf : jsIncludesStr ".." name = false := Bool.eq_false_iff.mpr hdd
          simp [hdf]

/-! ## C5 and C6: the reflog extractor -/

theorem reflogScanLines_first_match (cur r : String) (pre post : List String) (line : String)
    (hpre : ∀ l ∈ pre, reflogLineCandidate cur l = none)
    (hline : reflogLineCandidate cur line = some r) :
    reflogScanLines cur (pre ++ line :: post) = some r := by
  induction pre with
  | nil => simp [reflogScanLines, hline]
  | cons p ps ih =>
    have hp : reflogLineCandidate cur p = none := hpre p (List.mem_cons_self p ps)
    have := ih (fun l hl => hpre l (List.mem_cons_of_mem _ hl))
    simpa [reflogScanLines, hp] using this

theorem reflogScanLines_none (cur : String) (lines : List String)
    (h : ∀ l ∈ lines, reflogLineCandidate cur l = none) :
    reflogScanLines cur lines = none := by
  induction lines with
  | nil => rfl
  | cons p ps ih =>
    have hp : reflogLineCandidate cur p = none := h p (List.mem_cons_self p ps)
    have := ih (fun l hl => h l (List.mem_cons_of_mem _ hl))
    simpa [reflogScanLines, hp] using this

theorem findFromReflog_scan (w : GitWorld) (wd cur : String)
    (h1 : (runRes (runGitCommandM ("reflog show " ++ cur ++ " --format=%gs") wd) w).exitCode = 0)
    (h2 : jsTrim (runRes (runGitCommandM ("reflog show " ++ cur ++ " --format=%gs") wd) w).output ≠ "") :
    runRes (findFromReflog wd cur) w =
      reflogScanLines cur
        (((jsSplitChar '\n'
            (runRes (runGitCommandM ("reflog show " ++ cur ++ " --format=%gs") wd) w).output).filter
          (fun l => !(l == ""))).reverse) := by
  unfold findFromReflog
  simp only [runRes_bind]
  rw [if_neg ?hc]
  · simp
  case hc =>
    simp [h1, h2]

/-- C5 counterexample: a checkout record moving *from the detached-head
sentinel* onto the current branch is not skipped — the extractor returns the
sentinel `HEAD` itself as the base branch, contradicting the claim that
`HEAD` candidates are skipped for both patterns. -/
theorem findFromReflog_claim_counterexample :
    runRes (findFromReflog "repo" "feature") wHeadCo = some "HEAD" ∧
    jsToUpper "HEAD" = "HEAD" := by decide

/-- C5 amended: the extractor scans oldest-to-newest and returns the first
valid match; `Created from` sources equal to `HEAD` (case-insensitive) or
looking like commit hashes are skipped, while for checkout records only the
commit-hash filter applies (a `moving from HEAD to <current>` record *is*
returned as `HEAD`); a matched ref keeps the text after its last slash. -/
theorem findFromReflog_amended :
    (∀ (w : GitWorld) (wd cur : String),
      (runRes (runGitCommandM ("reflog show " ++ cur ++ " --format=%gs") wd) w).exitCode = 0 →
      jsTrim (runRes (runGitCommandM ("reflog show " ++ cur ++ " --format=%gs") wd) w).output ≠ "" →
      runRes (findFromReflog wd cur) w =
        reflogScanLines cur
          (((jsSplitChar '\n'
              (runRes (runGitCommandM ("reflog show " ++ cur ++ " --format=%gs") wd) w).output).filter
            (fun l => !(l == ""))).reverse))
    ∧ (∀ (cur r : String) (pre post : List String) (line : String),
        (∀ l ∈ pre, reflogLineCandidate cur l = none) →
        reflogLineCandidate cur line = some r →
        reflogScanLines cur (pre ++ line :: post) = some r)
    ∧ (∀ (cur : String) (lines : List String),
        (∀ l ∈ lines, reflogLineCandidate cur l = none) →
        reflogScanLines cur lines = none)
    ∧ reflogLineCandidate "feature" "branch: Created from main" = some "main"
    ∧ reflogLineCandidate "feature" "branch: Created from origin/develop" = some "develop"
    ∧ reflogLineCandidate "feature" "branch: Created from HEAD" = none
    ∧ reflogLineCandidate "feature" "branch: Created from head" = none
    ∧ reflogLineCandidate "feature" "branch: Created from abc1234" = none
    ∧ reflogLineCandidate "feature" "checkout: moving from develop to feature" = some "develop"
    ∧ reflogLineCandidate "feature" "checkout: moving from origin/dev to feature" = some "dev"
    ∧ reflogLineCandidate "feature" "checkout: moving from abc1234 to feature" = none
    ∧ reflogLineCandidate "feature" "checkout: moving from develop to other" = none
    ∧ reflogLineCandidate "feature" "checkout: moving from HEAD to feature" = some "HEAD" :=
  ⟨findFromReflog_scan, reflogScanLines_first_match, reflogScanLines_none,
   by decide, by decide, by decide, by decide, by decide, by decide, by decide,
   by decide, by decide, by decide⟩

/-- Witness for C5 at a concrete reflog: the oldest valid entry wins. -/
theorem findFromReflog_amended_witness :
    reflogScanLines "feature" (["branch: Created from HEAD", "checkout: moving from x to other"] ++
      "checkout: moving from main to feature" :: ["branch: Created from trunk"]) = some "main" :=
  findFromReflog_amended.2.1 "feature" "main"
    ["branch: Created from HEAD", "checkout: moving from x to other"]
    ["branch: Created from trunk"]
    "checkout: moving from main to feature"
    (by decide) (by decide)

theorem reflogLineCandidate_token (cur line r : String)
    (h : reflogLineCandidate cur line = some r) :
    ∃ tok : String, isCommitHash tok = false ∧ r = stripRemotePart tok ∧
      (tok.data.contains '/' = false → r = tok) := by
  unfold reflogLineCandidate at h
  split at h
  · rename_i source _
    split at h
    · exact absurd h (by simp)
    · rename_i hcond
      have hr : r = stripRemotePart source := ((Option.some.injEq _ _).mp h).symm
      have hhash : isCommitHash source = false := by
        cases hb : isCommitHash source
        · rfl
        · exact absurd (by simp [hb]) hcond
      refine ⟨source, hhash, hr, fun hnoslash => ?_⟩
      rw [hr]
      unfold stripRemotePart
      rw [if_neg (by rw [hnoslash]; exact Bool.false_ne_true)]
  · split at h
    · rename_i p _
      split at h
      · rename_i hcond
        have hr : r = stripRemotePart p.1 := ((Option.some.injEq _ _).mp h).symm
        have hhash : isCommitHash p.1 = false := by
          cases hb : isCommitHash p.1
          · rfl
          · rw [hb] at hcond
            simp at hcond
        refine ⟨p.1, hhash, hr, fun hnoslash => ?_⟩
        rw [hr]
        unfold stripRemotePart
        rw [if_neg (by rw [hnoslash]; exact Bool.false_ne_true)]
      · exact absurd h (by simp)
    · exact absurd h (by simp)

theorem reflogScanLines_token (cur : String) (lines : List String) (r : String)
    (h : reflogScanLines cur lines = some r) :
    ∃ tok : String, isCommitHash tok = false ∧ r = stripRemotePart tok ∧
      (tok.data.contains '/' = false → r = tok) := by
  induction lines with
  | nil => exact absurd h (by simp [reflogScanLines])
  | cons p ps ih =>
    cases hp : reflogLineCandidate cur p with
    | some v =>
      have : some v = some r := by simpa [reflogScanLines, hp] using h
      exact reflogLineCandidate_token cur p r (hp.trans this)
    | none =>
      exact ih (by simpa [reflogScanLines, hp] using h)

/-- C6 counterexample: a 7-hex-character string *is* returned as the base
branch when it appears behind a remote prefix in a `Created from` entry —
the hash filter runs before the prefix strip, so `origin/abcdef1` passes it
and the returned suffix `abcdef1` is itself hash-shaped. -/
theorem reflog_hash_filter_claim_counterexample :
    runRes (findFromReflog "repo" "feature") wHexCo = some "abcdef1" ∧
    isCommitHash "abcdef1" = true := by decide

/-- C6 amended: the commit-hash filter applies to the *whole matched token*
before the prefix strip: every value the reflog extractor returns comes from
a matched token that is not itself hash-shaped, and a slash-free token is
returned unchanged (hence a bare 7-40 hex string is never returned); but a
token of the form `remote/<hex>` passes the filter and its hex suffix is
returned. -/
theorem reflog_hash_filter_amended :
    (∀ (cur : String) (lines : List String) (r : String),
      reflogScanLines cur lines = some r →
      ∃ tok : String, isCommitHash tok = false ∧ r = stripRemotePart tok ∧
        (tok.data.contains '/' = false → r = tok))
    ∧ (∀ (cur : String) (lines : List String) (r : String),
        reflogScanLines cur lines = some r → isCommitHash r = true →
        ∃ tok : String, isCommitHash tok = false ∧ r = stripRemotePart tok ∧
          tok.data.contains '/' = true)
    ∧ reflogLineCandidate "feature" "branch: Created from origin/abcdef1" = some "abcdef1" := by
  refine ⟨reflogScanLines_token, ?_, by decide⟩
  intro cur lines r hscan hhash
  obtain ⟨tok, htok, hr, hfree⟩ := reflogScanLines_token cur lines r hscan
  refine ⟨tok, htok, hr, ?_⟩
  cases hsl : tok.data.contains '/' with
  | true => rfl
  | false =>
    rw [hfree hsl] at hhash
    rw [hhash] at htok
    exact absurd htok (by simp)

/-- Witness for C6 at a concrete reflog line list: the returned name comes
from a non-hash token. -/
theorem reflog_hash_filter_amended_witness :
    reflogScanLines "feature" ["branch: Created from main"] = some "main" ∧
    ∃ tok : String, isCommitHash tok = false ∧ "main" = stripRemotePart tok ∧
      (tok.data.contains '/' = false → "main" = tok) :=
  ⟨by decide,
   reflog_hash_filter_amended.1 "feature" ["branch: Created from main"] "main" (by decide)⟩

/-! ## C4: the keyword fallback -/

theorem find_first_exact (p : String → Bool) (m1 m2 : List String) (b : String)
    (h1 : ∀ x ∈ m1, p x = false) (hb : p b = true) :
    (m1 ++ b :: m2).find? p = some b := by
  induction m1 with
  | nil => simp [List.find?, hb]
  | cons x xs ih =>
    have hx : p x = false := h1 x (List.mem_cons_self x xs)
    have := ih (fun y hy => h1 y (List.mem_cons_of_mem _ hy))
    simpa [List.find?, hx] using this

/-- C4 counterexample: with candidate branches `release-2024` and `main`
(and `main` the only exact keyword), the fallback returns `release-2024`,
not `main` — the `release` rule fires first and a pattern with exactly one
(non-exact) match is accepted outright. -/
theorem findFromBranchNameKeywords_claim_counterexample :
    runRes (getLocalBranches "repo" "feature") wKw = ["release-2024", "main"] ∧
    runRes (getRemoteBranches "repo" "origin") wKw = [] ∧
    runRes (findFromBranchNameKeywords "repo" "feature" "origin") wKw =
      some { remote := "origin", baseBranch := "release-2024" } := by decide

/-- C4 amended: the anchored patterns `release` (exact or `release/`- or
`release-`-prefixed), exact `main`, `master`, `develop`, `dev` are tested in
that order over the deduplicated union of local and remote branches minus the
current branch; a pattern with no match is skipped; a pattern with exactly
one match accepts that branch even when it is not the keyword itself; a
pattern with several matches accepts the first match whose lowercase form
equals the keyword, if any, and is otherwise discarded in favour of the next
pattern. In particular `{release-2024, main}` yields `release-2024`, and
`{release-a, release-b}` causes the `release` pattern to be discarded (and,
with no other keyword branch present, no fallback result at all). -/
theorem findFromBranchNameKeywords_amended :
    (∀ keyword : String, selectKeywordBranch [] keyword = none)
    ∧ (∀ b keyword : String, selectKeywordBranch [b] keyword = some b)
    ∧ (∀ (m1 : List String) (b : String) (m2 : List String) (keyword : String),
        (∀ x ∈ m1, (jsToLower x == keyword) = false) →
        (jsToLower b == keyword) = true →
        selectKeywordBranch (m1 ++ b :: m2) keyword = some b)
    ∧ (∀ (ml : List String) (keyword : String), 2 ≤ ml.length →
        (∀ x ∈ ml, (jsToLower x == keyword) = false) →
        selectKeywordBranch ml keyword = none)
    ∧ (∀ (w : GitWorld) (wd currentBranch remote : String),
        runRes (findFromBranchNameKeywords wd currentBranch remote) w =
          runRes (tryKeywordRules wd remote
            ((jsSetDedup (localsOf w wd currentBranch ++ remotesOf w wd remote)).filter
              (fun b => !(b == currentBranch)))
            (remotesOf w wd remote) keywordRules) w)
    ∧ (∀ (w : GitWorld) (wd remote : String) (allBranches remoteBranches : List String)
        (rule : String × (String → Bool)) (rest : List (String × (String → Bool))),
        jsTruthyS (selectKeywordBranch (allBranches.filter rule.2) rule.1) = false →
        runRes (tryKeywordRules wd remote allBranches remoteBranches (rule :: rest)) w =
          runRes (tryKeywordRules wd remote allBranches remoteBranches rest) w)
    ∧ runRes (findFromBranchNameKeywords "repo" "feature" "origin") wKw =
        some { remote := "origin", baseBranch := "release-2024" }
    ∧ selectKeywordBranch ["release-a", "release-b"] "release" = none
    ∧ runRes (findFromBranchNameKeywords "repo" "feature" "origin") wKw2 = none := by
  refine ⟨fun _ => rfl, ?_, ?_, ?_, fun w wd c r => rfl, ?_, by decide, by decide, by decide⟩
  · intro b keyword
    unfold selectKeywordBranch
    cases hp : (jsToLower b == keyword) <;> simp [List.find?, hp]
  · intro m1 b m2 keyword h1 hb
    have hne : ((m1 ++ b :: m2).isEmpty : Bool) = false := by simp
    simp [selectKeywordBranch, hne, find_first_exact _ m1 m2 b h1 hb]
  · intro ml keyword hlen h1
    have hfind : ml.find? (fun branch => jsToLower branch == keyword) = none :=
      List.find?_eq_none.mpr (fun x hx => by simp [h1 x hx])
    have hne : (ml.isEmpty : Bool) = false := by
      cases ml with
      | nil => simp at hlen
      | cons x xs => rfl
    have hone : (ml.length == 1) = false := by
      have : ml.length ≠ 1 := by omega
      simpa using this
    simp [selectKeywordBranch, hne, hfind, hone]
  · intro w wd remote allBranches remoteBranches rule rest h
    simp [tryKeywordRules, h]

/-- Witness for C4: the first case-insensitive exact match wins among
several matches. -/
theorem findFromBranchNameKeywords_amended_witness :
    selectKeywordBranch (["release-x"] ++ "MAIN" :: ["main"]) "main" = some "MAIN" :=
  findFromBranchNameKeywords_amended.2.2.1 ["release-x"] "MAIN" ["main"] "main"
    (by decide) (by decide)

/-! ## C1 and C2: the history/graph strategy -/


theorem historyStepLocal_skip (w : GitWorld) (wd cur remote head : String)
    (st : HistScan) (b : String)
    (h : localCandidate w wd cur head b = false) :
    runRes (historyStepLocal wd cur remote head st b) w = st := by
  unfold localCandidate mergeBaseOf aheadOf at h
  unfold historyStepLocal
  simp only [runRes_bind, runRes_ite, runRes_pure]
  cases h1 : jsTruthyS (runRes (getMergeBase wd cur b) w) with
  | false => simp [h1]
  | true =>
    cases h2 : ((runRes (getMergeBase wd cur b) w).getD "" == head) with
    | true => simp [h1, h2]
    | false =>
      rw [h1, h2] at h
      simp only [Bool.true_and, Bool.not_false, Bool.and_eq_false_imp] at h
      simp [h1, h2, h]

@[simp] theorem runRes_match_choice (c : HierarchyChoice) (a b : GitM α) (w : GitWorld) :
    runRes (match c with | HierarchyChoice.incoming => a | HierarchyChoice.existing => b) w =
      (match c with
        | HierarchyChoice.incoming => runRes a w
        | HierarchyChoice.existing => runRes b w) := by
  cases c <;> rfl

theorem historyStepRemote_skip (w : GitWorld) (wd cur remote head : String)
    (locals : List String) (st : HistScan) (b : String)
    (h : remoteCandidate w wd cur head remote locals b = false) :
    runRes (historyStepRemote wd cur remote head locals st b) w = st := by
  unfold remoteCandidate mergeBaseOf aheadOf at h
  unfold historyStepRemote
  simp only [runRes_bind, runRes_ite, runRes_pure]
  cases h0 : locals.contains b with
  | true => simp [h0]
  | false =>
    rw [h0] at h
    simp only [Bool.not_false, Bool.true_and] at h
    cases h1 : jsTruthyS (runRes (getMergeBase wd cur (remote ++ "/" ++ b)) w) with
    | false => simp [h0, h1]
    | true =>
      cases h2 : ((runRes (getMergeBase wd cur (remote ++ "/" ++ b)) w).getD "" == head) with
      | true => simp [h0, h1, h2]
      | false =>
        rw [h1, h2] at h
        simp only [Bool.true_and, Bool.not_false, Bool.and_eq_false_imp] at h
        simp [h0, h1, h2, h]

theorem historyStepLocal_amb_mono (w : GitWorld) (wd cur remote head : String)
    (st : HistScan) (b : String) (h : st.hasAmbiguity = true) :
    (runRes (historyStepLocal wd cur remote head st b) w).hasAmbiguity = true := by
  unfold historyStepLocal
  simp only [runRes_bind, runRes_ite, runRes_pure, runRes_match_choice]
  repeat' split
  all_goals simp_all

theorem historyStepRemote_amb_mono (w : GitWorld) (wd cur remote head : String)
    (locals : List String) (st : HistScan) (b : String) (h : st.hasAmbiguity = true) :
    (runRes (historyStepRemote wd cur remote head locals st b) w).hasAmbiguity = true := by
  unfold historyStepRemote
  simp only [runRes_bind, runRes_ite, runRes_pure, runRes_match_choice]
  repeat' split
  all_goals simp_all

theorem scanLocalBranches_cons (w : GitWorld) (wd cur remote head : String)
    (st : HistScan) (b : String) (rest : List String) :
    runRes (scanLocalBranches wd cur remote head st (b :: rest)) w =
      runRes (scanLocalBranches wd cur remote head
        (runRes (historyStepLocal wd cur remote head st b) w) rest) w := rfl

theorem scanRemoteBranches_cons (w : GitWorld) (wd cur remote head : String)
    (locals : List String) (st : HistScan) (b : String) (rest : List String) :
    runRes (scanRemoteBranches wd cur remote head locals st (b :: rest)) w =
      runRes (scanRemoteBranches wd cur remote head locals
        (runRes (historyStepRemote wd cur remote head locals st b) w) rest) w := rfl

theorem scanLocalBranches_append (w : GitWorld) (wd cur remote head : String)
    (l1 l2 : List String) (st : HistScan) :
    runRes (scanLocalBranches wd cur remote head st (l1 ++ l2)) w =
      runRes (scanLocalBranches wd cur remote head
        (runRes (scanLocalBranches wd cur remote head st l1) w) l2) w := by
  induction l1 generalizing st with
  | nil => rfl
  | cons x xs ih =>
    rw [List.cons_append, scanLocalBranches_cons, scanLocalBranches_cons]
    exact ih _

theorem scanLocalBranches_amb_mono (w : GitWorld) (wd cur remote head : String)
    (l : List String) (st : HistScan) (h : st.hasAmbiguity = true) :
    (runRes (scanLocalBranches wd cur remote head st l) w).hasAmbiguity = true := by
  induction l generalizing st with
  | nil => exact h
  | cons x xs ih =>
    rw [scanLocalBranches_cons]
    exact ih _ (historyStepLocal_amb_mono w wd cur remote head st x h)

theorem scanRemoteBranches_amb_mono (w : GitWorld) (wd cur remote head : String)
    (locals : List String) (l : List String) (st : HistScan) (h : st.hasAmbiguity = true) :
    (runRes (scanRemoteBranches wd cur remote head locals st l) w).hasAmbiguity = true := by
  induction l generalizing st with
  | nil => exact h
  | cons x xs ih =>
    rw [scanRemoteBranches_cons]
    exact ih _ (historyStepRemote_amb_mono w wd cur remote head locals st x h)

theorem historyStepLocal_amb_trigger (w : GitWorld) (wd cur remote head : String)
    (st : HistScan) (b : String)
    (hcount : st.candidateCount ≠ 0)
    (hcand : localCandidate w wd cur head b = true)
    (hnew : runRes (isBranchAhead wd b (st.uniqueRef.getD "")) w = false)
    (hprev : runRes (isBranchAhead wd (st.uniqueRef.getD "") b) w = false) :
    (runRes (historyStepLocal wd cur remote head st b) w).hasAmbiguity = true := by
  unfold localCandidate mergeBaseOf aheadOf at hcand
  simp only [Bool.and_eq_true] at hcand
  obtain ⟨⟨h1, h2⟩, h3⟩ := hcand
  have hc1 : (st.candidateCount + 1 == 1) = false := by
    simp only [beq_eq_false_iff_ne, ne_eq]
    omega
  have h2n : (runRes (getMergeBase wd cur b) w).getD "" ≠ head := by simpa using h2
  unfold historyStepLocal
  simp only [runRes_bind, runRes_ite, runRes_pure, runRes_match_choice]
  simp [h1, h2, h2n, h3, hc1, hnew, hprev]

theorem findFromGitHistory_char (w : GitWorld) (wd cur remote : String) :
    runRes (findFromGitHistory wd cur remote) w =
      (if (revParseOf w wd cur).exitCode = 0 then
        (if ((historyFinalState w wd cur remote).candidateCount == 1
            && jsTruthyS (historyFinalState w wd cur remote).uniqueBase
            && !(historyFinalState w wd cur remote).hasAmbiguity) = true then
          some { remote := (historyFinalState w wd cur remote).uniqueRemote.getD remote
                 baseBranch := (historyFinalState w wd cur remote).uniqueBase.getD "" }
        else none)
      else none) := by
  unfold findFromGitHistory historyFinalState historyHead revParseOf localsOf remotesOf
  simp only [runRes_bind, runRes_ite, runRes_pure]
  by_cases he : (runRes (runGitCommandM ("rev-parse " ++ cur) wd) w).exitCode = 0
  · simp [he]
  · simp [he, bne_iff_ne]

theorem historyStepLocal_state_shape (w : GitWorld) (wd cur remote head : String)
    (st : HistScan) (b : String) :
    ((runRes (historyStepLocal wd cur remote head st b) w).uniqueBase = st.uniqueBase ∧
      (runRes (historyStepLocal wd cur remote head st b) w).uniqueRef = st.uniqueRef) ∨
    ((runRes (historyStepLocal wd cur remote head st b) w).uniqueBase = some b ∧
      (runRes (historyStepLocal wd cur remote head st b) w).uniqueRef = some b ∧
      runRes (isBranchAhead wd cur b) w = true) := by
  unfold historyStepLocal
  simp only [runRes_bind, runRes_ite, runRes_pure, runRes_match_choice]
  repeat' split
  all_goals simp_all

theorem historyStepRemote_state_shape (w : GitWorld) (wd cur remote head : String)
    (locals : List String) (st : HistScan) (b : String) :
    ((runRes (historyStepRemote wd cur remote head locals st b) w).uniqueBase = st.uniqueBase ∧
      (runRes (historyStepRemote wd cur remote head locals st b) w).uniqueRef = st.uniqueRef) ∨
    ((runRes (historyStepRemote wd cur remote head locals st b) w).uniqueBase = some b ∧
      (runRes (historyStepRemote wd cur remote head locals st b) w).uniqueRef =
        some (remote ++ "/" ++ b) ∧
      runRes (isBranchAhead wd cur (remote ++ "/" ++ b)) w = true) := by
  unfold historyStepRemote
  simp only [runRes_bind, runRes_ite, runRes_pure, runRes_match_choice]
  repeat' split
  all_goals simp_all

theorem HistScanOK_of_shape_keep (w : GitWorld) (wd cur remote : String)
    (locals remotes : List String) (st st' : HistScan)
    (hbase : st'.uniqueBase = st.uniqueBase) (href : st'.uniqueRef = st.uniqueRef)
    (hst : HistScanOK w wd cur remote locals remotes st) :
    HistScanOK w wd cur remote locals remotes st' := by
  intro bb hbb
  rw [hbase] at hbb
  rcases hst bb hbb with ⟨hm, hr, ha⟩ | ⟨hm, hr, ha⟩
  · exact Or.inl ⟨hm, by rw [href]; exact hr, ha⟩
  · exact Or.inr ⟨hm, by rw [href]; exact hr, ha⟩

theorem historyStepLocal_inv (w : GitWorld) (wd cur remote head : String)
    (locals remotes : List String) (st : HistScan) (b : String) (hb : b ∈ locals)
    (hst : HistScanOK w wd cur remote locals remotes st) :
    HistScanOK w wd cur remote locals remotes
      (runRes (historyStepLocal wd cur remote head st b) w) := by
  rcases historyStepLocal_state_shape w wd cur remote head st b with
    ⟨hbase, href⟩ | ⟨hbase, href, hahead⟩
  · exact HistScanOK_of_shape_keep w wd cur remote locals remotes st _ hbase href hst
  · intro bb hbb
    rw [hbase] at hbb
    obtain rfl : b = bb := by simpa using hbb
    exact Or.inl ⟨hb, href, hahead⟩

theorem historyStepRemote_inv (w : GitWorld) (wd cur remote head : String)
    (locals remotes : List String) (st : HistScan) (b : String) (hb : b ∈ remotes)
    (hst : HistScanOK w wd cur remote locals remotes st) :
    HistScanOK w wd cur remote locals remotes
      (runRes (historyStepRemote wd cur remote head locals st b) w) := by
  rcases historyStepRemote_state_shape w wd cur remote head locals st b with
    ⟨hbase, href⟩ | ⟨hbase, href, hahead⟩
  · exact HistScanOK_of_shape_keep w wd cur remote locals remotes st _ hbase href hst
  · intro bb hbb
    rw [hbase] at hbb
    obtain rfl : b = bb := by simpa using hbb
    exact Or.inr ⟨hb, href, hahead⟩

theorem scanLocalBranches_inv (w : GitWorld) (wd cur remote head : String)
    (locals remotes : List String) (l : List String) (hsub : ∀ x ∈ l, x ∈ locals)
    (st : HistScan) (hst : HistScanOK w wd cur remote locals remotes st) :
    HistScanOK w wd cur remote locals remotes
      (runRes (scanLocalBranches wd cur remote head st l) w) := by
  induction l generalizing st with
  | nil => exact hst
  | cons x xs ih =>
    rw [scanLocalBranches_cons]
    exact ih (fun y hy => hsub y (List.mem_cons_of_mem _ hy)) _
      (historyStepLocal_inv w wd cur remote head locals remotes st x
        (hsub x (List.mem_cons_self x xs)) hst)

theorem scanRemoteBranches_inv (w : GitWorld) (wd cur remote head : String)
    (locals remotes : List String) (l : List String) (hsub : ∀ x ∈ l, x ∈ remotes)
    (st : HistScan) (hst : HistScanOK w wd cur remote locals remotes st) :
    HistScanOK w wd cur remote locals remotes
      (runRes (scanRemoteBranches wd cur remote head locals st l) w) := by
  induction l generalizing st with
  | nil => exact hst
  | cons x xs ih =>
    rw [scanRemoteBranches_cons]
    exact ih (fun y hy => hsub y (List.mem_cons_of_mem _ hy)) _
      (historyStepRemote_inv w wd cur remote head locals remotes st x
        (hsub x (List.mem_cons_self x xs)) hst)

theorem historyFinalState_OK (w : GitWorld) (wd cur remote : String) :
    HistScanOK w wd cur remote (localsOf w wd cur) (remotesOf w wd remote)
      (historyFinalState w wd cur remote) := by
  unfold historyFinalState
  apply scanRemoteBranches_inv w wd cur remote _ _ _ _ (fun x hx => hx)
  apply scanLocalBranches_inv w wd cur remote _ _ _ _ (fun x hx => hx)
  intro bb hbb
  cases hbb

/-- C1: the history extractor accepts a branch as a candidate only if a
merge-base with the current branch exists (is truthy), that merge-base
differs from the current branch's tip, and the current branch is strictly
ahead of the candidate (a branch failing any check leaves the scan state
untouched, in both loops); the extractor returns a `{remote, baseBranch}`
result exactly when the scan ends with exactly one surviving candidate
(count 1, base recorded) and no ambiguity flag; and whenever a second
accepted candidate is mutually non-ancestor with the recorded one, the flag
is raised and the extractor returns no result regardless of any later
candidates. -/
theorem findFromGitHistory_unique_candidate :
    (∀ (w : GitWorld) (wd cur remote head : String) (st : HistScan) (b : String),
      localCandidate w wd cur head b = false →
      runRes (historyStepLocal wd cur remote head st b) w = st)
    ∧ (∀ (w : GitWorld) (wd cur remote head : String) (locals : List String)
        (st : HistScan) (b : String),
      remoteCandidate w wd cur head remote locals b = false →
      runRes (historyStepRemote wd cur remote head locals st b) w = st)
    ∧ (∀ (w : GitWorld) (wd cur remote : String),
      runRes (findFromGitHistory wd cur remote) w =
        (if (revParseOf w wd cur).exitCode = 0 then
          (if ((historyFinalState w wd cur remote).candidateCount == 1
              && jsTruthyS (historyFinalState w wd cur remote).uniqueBase
              && !(historyFinalState w wd cur remote).hasAmbiguity) = true then
            some { remote := (historyFinalState w wd cur remote).uniqueRemote.getD remote
                   baseBranch := (historyFinalState w wd cur remote).uniqueBase.getD "" }
          else none)
        else none))
    ∧ (∀ (w : GitWorld) (wd cur remote : String) (l1 : List String) (b : String)
        (l2 : List String),
      localsOf w wd cur = l1 ++ b :: l2 →
      (runRes (scanLocalBranches wd cur remote (historyHead w wd cur) historyInit l1)
        w).candidateCount ≠ 0 →
      localCandidate w wd cur (historyHead w wd cur) b = true →
      runRes (isBranchAhead wd b
        ((runRes (scanLocalBranches wd cur remote (historyHead w wd cur) historyInit l1)
          w).uniqueRef.getD "")) w = false →
      runRes (isBranchAhead wd
        ((runRes (scanLocalBranches wd cur remote (historyHead w wd cur) historyInit l1)
          w).uniqueRef.getD "") b) w = false →
      runRes (findFromGitHistory wd cur remote) w = none) := by
  refine ⟨historyStepLocal_skip, historyStepRemote_skip, findFromGitHistory_char, ?_⟩
  intro w wd cur remote l1 b l2 hsplit hcount hcand hnew hprev
  have hamb : (historyFinalState w wd cur remote).hasAmbiguity = true := by
    unfold historyFinalState
    rw [hsplit, scanLocalBranches_append, scanLocalBranches_cons]
    apply scanRemoteBranches_amb_mono
    apply scanLocalBranches_amb_mono
    exact historyStepLocal_amb_trigger w wd cur remote (historyHead w wd cur) _ b
      hcount hcand hnew hprev
  rw [findFromGitHistory_char]
  by_cases he : (revParseOf w wd cur).exitCode = 0
  · simp [he, hamb]
  · simp [he]

/-- Witness for C1: two mutually non-ancestor candidates make the strategy
return no result. -/
theorem findFromGitHistory_unique_candidate_witness :
    runRes (findFromGitHistory "repo" "feature" "origin") wAmb = none :=
  findFromGitHistory_unique_candidate.2.2.2 wAmb "repo" "feature" "origin" ["b1"] "b2" []
    (by decide) (by decide) (by decide) (by decide) (by decide)

/-- C2 counterexample: `findBaseBranch` (via the reflog strategy) returns
`ghost`, a branch that appears in no branch list of the repository and of
which the current branch is not ahead (under either reference) — the claimed
invariant fails for results of the non-history strategies. -/
theorem findBaseBranch_base_is_predecessor_counterexample :
    runRes (findBaseBranch "repo" "feature" "origin") wGhost =
      some { remote := "origin", baseBranch := "ghost" } ∧
    localsOf wGhost "repo" "feature" = [] ∧
    remotesOf wGhost "repo" "origin" = [] ∧
    aheadOf wGhost "repo" "feature" "ghost" = false ∧
    aheadOf wGhost "repo" "feature" "origin/ghost" = false := by decide

/-- C2 amended: the invariant does hold for every result of the *history*
strategy: the returned `baseBranch` is listed among the repository's local or
remote branches at resolution time, and the current branch is strictly ahead
of it via the chosen reference (the bare name for a local candidate, the
remote-qualified name for a remote one). Results of the reflog,
tracking-configuration and keyword strategies carry no such guarantee. -/
theorem findFromGitHistory_base_is_predecessor (w : GitWorld) (wd cur remote : String)
    (info : BranchInfo)
    (h : runRes (findFromGitHistory wd cur remote) w = some info) :
    (info.baseBranch ∈ localsOf w wd cur ∧ aheadOf w wd cur info.baseBranch = true) ∨
    (info.baseBranch ∈ remotesOf w wd remote ∧
      aheadOf w wd cur (remote ++ "/" ++ info.baseBranch) = true) := by
  rw [findFromGitHistory_char] at h
  by_cases he : (revParseOf w wd cur).exitCode = 0
  · rw [if_pos he] at h
    by_cases hc : ((historyFinalState w wd cur remote).candidateCount == 1
        && jsTruthyS (historyFinalState w wd cur remote).uniqueBase
        && !(historyFinalState w wd cur remote).hasAmbiguity) = true
    · rw [if_pos hc] at h
      have hinfo : info = { remote := (historyFinalState w wd cur remote).uniqueRemote.getD remote
                            baseBranch := (historyFinalState w wd cur remote).uniqueBase.getD "" } :=
        ((Option.some.injEq _ _).mp h).symm
      cases hub : (historyFinalState w wd cur remote).uniqueBase with
      | none =>
        rw [Bool.and_eq_true, Bool.and_eq_true] at hc
        rcases hc with ⟨⟨_, htr⟩, _⟩
        rw [hub] at htr
        exact absurd htr (by simp [jsTruthyS])
      | some s =>
        have hbase : info.baseBranch = s := by rw [hinfo, hub]; rfl
        have hOK := historyFinalState_OK w wd cur remote s hub
        rw [← hbase] at hOK
        rcases hOK with ⟨hm, _, ha⟩ | ⟨hm, _, ha⟩
        · exact Or.inl ⟨hm, ha⟩
        · exact Or.inr ⟨hm, ha⟩
    · rw [if_neg hc] at h
      cases h
  · rw [if_neg he] at h
    cases h

/-- Witness for C2 at a repository with a single history candidate. -/
theorem findFromGitHistory_base_is_predecessor_witness :
    ("main" ∈ localsOf wOne "repo" "feature" ∧
      aheadOf wOne "repo" "feature" "main" = true) ∨
    ("main" ∈ remotesOf wOne "repo" "origin" ∧
      aheadOf wOne "repo" "feature" ("origin" ++ "/" ++ "main") = true) :=
  findFromGitHistory_base_is_predecessor wOne "repo" "feature" "origin"
    { remote := "origin", baseBranch := "main" } (by decide)
